import Mathlib

/-!
# Verification of the Switchipy theme-switching core

Shallow embedding of the decision logic of the Switchipy repository
(theme catalog builder, mode classifier, time window evaluator, switch
controller, interval-setting handler), together with proofs and
refutations of the frozen specification claims.

Theme names, HH:MM strings and user input are modelled as `List Char`
(Python `str`).  Python's string `<` / `<=` are code-point-wise
lexicographic comparison, embedded as `lexLt` / `lexLe` below.
-/

namespace Switchipy

/-- A theme name / arbitrary Python string, as its list of characters. -/
abbrev Name := List Char

/-- Lexicographic strict comparison of strings, exactly Python's `s < t`
on `str` (code-point order, shorter strict-prefix is smaller). -/
def lexLt : Name → Name → Bool
  | [], [] => false
  | [], _ :: _ => true
  | _ :: _, [] => false
  | a :: xs, b :: ys => if a < b then true else if a = b then lexLt xs ys else false

/-- Python's `s <= t` on `str`: `s < t` or `s = t`. -/
def lexLe (a b : Name) : Bool := lexLt a b || a == b

/-- Embedding of `SwitchipyApp.is_dark_time` (src/app.py:110-132) and of the
identical `is_dark_time` logic in src/switchipy/cli.py:91-107, as a function
of the configured window and the current clock string:

    if dark_start < dark_end:
        return dark_start <= now < dark_end
    else:
        return now >= dark_start or now < dark_end
-/
def is_dark_time (dark_start dark_end now : Name) : Bool :=
  if lexLt dark_start dark_end then lexLe dark_start now && lexLt now dark_end
  else lexLe dark_start now || lexLt now dark_end

/-- Case-insensitive prefix test: does `s` start with the (lowercase) pattern
`pat`, comparing each text character through `Char.toLower`?  This is the
matching primitive behind Python's `re` with `re.IGNORECASE` on a plain
word pattern (ASCII case folding). -/
def startsWithCI : List Char → Name → Bool
  | [], _ => true
  | _ :: _, [] => false
  | p :: ps, c :: cs => (c.toLower == p) && startsWithCI ps cs

/-- Case-insensitive unanchored substring test, the embedding of
`re.search(pat, s, flags=re.IGNORECASE)` for a plain word pattern `pat`. -/
def containsCI (pat : List Char) : Name → Bool
  | [] => startsWithCI pat []
  | c :: cs => startsWithCI pat (c :: cs) || containsCI pat cs

/-- The word "dark" (lowercase). -/
def darkW : List Char := ['d', 'a', 'r', 'k']

/-- The word "light" (lowercase). -/
def lightW : List Char := ['l', 'i', 'g', 'h', 't']

/-- The word "black" (lowercase). -/
def blackW : List Char := ['b', 'l', 'a', 'c', 'k']

/-- The word "noir" (lowercase). -/
def noirW : List Char := ['n', 'o', 'i', 'r']

/-- The two theme modes returned by `get_current_mode`
(the strings "light" and "dark" in the Python code). -/
inductive Mode where
  | light
  | dark
deriving DecidableEq

/-- Embedding of the dark test in `get_current_mode`
(src/switchipy/themes.py:167): `re.search(r"dark|black|noir", theme_name,
flags=re.IGNORECASE)` is truthy. -/
def isDarkName (t : Name) : Bool :=
  containsCI darkW t || containsCI blackW t || containsCI noirW t

/-- Embedding of `get_current_mode` (src/switchipy/themes.py:151-170) applied
to an explicit theme name: "dark" if the name matches `dark|black|noir`
case-insensitively, else "light". -/
def get_current_mode (t : Name) : Mode :=
  if isDarkName t then Mode.dark else Mode.light

/-- Declarative case-insensitive occurrence: the (lowercase) pattern `pat`
occurs somewhere in `s` as a contiguous substring, up to case folding. -/
def OccursCI (pat : List Char) (s : Name) : Prop :=
  ∃ l m r : List Char, s = l ++ m ++ r ∧ m.map Char.toLower = pat

/-- Try to strip the (lowercase) pattern `ps` from the front of `cs`,
case-insensitively; return the remainder on success. -/
def stripPre : List Char → Name → Option Name
  | [], cs => some cs
  | _ :: _, [] => none
  | p :: ps, c :: cs => if c.toLower = p then stripPre ps cs else none

/-- One attempted match of the regex `-(dark|light|black|noir)` (with
`re.IGNORECASE`) at the current position: a hyphen followed by one of the
four words, alternatives tried in the regex's order.  Returns the remainder
after the match. -/
def matchSuffixAt : Name → Option Name
  | [] => none
  | c :: rest =>
    if c = '-' then
      match stripPre darkW rest with
      | some r => some r
      | none =>
        match stripPre lightW rest with
        | some r => some r
        | none =>
          match stripPre blackW rest with
          | some r => some r
          | none => stripPre noirW rest
    else none

/-- Fuel-indexed scanner realizing
`re.sub(r"-(dark|light|black|noir)", "", theme_name, flags=re.IGNORECASE)`:
scan left to right; at each position remove a non-overlapping match and
continue after it, otherwise keep the character.  One unit of fuel is spent
per step; `base_name` supplies `cs.length` units, which is more than the
scan can consume (each step strictly shortens the remaining input), so the
fuel-exhausted branch is unreachable — `base_nameFuel_irrel` below makes
this precise. -/
def base_nameFuel : Nat → Name → Name
  | 0, cs => cs
  | fuel + 1, cs =>
    match matchSuffixAt cs with
    | some rest => base_nameFuel fuel rest
    | none =>
      match cs with
      | [] => []
      | c :: cs' => c :: base_nameFuel fuel cs'

/-- Embedding of the base-name derivation in `generate_theme_map`
(src/switchipy/themes.py:73):
`re.sub(r"-(dark|light|black|noir)", "", theme_name, flags=re.IGNORECASE)`,
which removes EVERY non-overlapping occurrence in one left-to-right pass. -/
def base_name (cs : Name) : Name := base_nameFuel cs.length cs

/-- Modelled from claim `C2`'s description of the base-name derivation:
removes ONLY the first (leftmost) matching occurrence of a mode suffix,
leaving any later occurrences in place. -/
def base_name_first : Name → Name
  | [] => []
  | c :: cs =>
    match matchSuffixAt (c :: cs) with
    | some rest => rest
    | none => c :: base_name_first cs

/-- The Settings record (src/switchipy/config.py): auto-switch flag, dark
window bounds, last applied theme. -/
structure Config where
  auto_switch_enabled : Bool
  dark_start : Name
  dark_end : Name
  last_theme : Name
deriving DecidableEq

/-- Embedding of `DEFAULT_CONFIG` (src/switchipy/config.py:17-22). -/
def DEFAULT_CONFIG : Config :=
  { auto_switch_enabled := false
    dark_start := ("19:00").data
    dark_end := ("05:00").data
    last_theme := [] }

/-- Embedding of the validation
`re.match(r"^\d\x7b2\x7d:\d\x7b2\x7d-\d\x7b2\x7d:\d\x7b2\x7d$", interval)`
in `SwitchipyApp.set_dark_interval` (src/app.py:153): exactly eleven
characters of shape DD:DD-DD:DD, where D is a decimal digit. -/
def matchesIntervalFormat : Name → Bool
  | [a, b, c, d, e, f, g, h, i, j, k] =>
    a.isDigit && b.isDigit && (c == ':') && d.isDigit && e.isDigit && (f == '-') &&
    g.isDigit && h.isDigit && (i == ':') && j.isDigit && k.isDigit
  | _ => false

/-- Embedding of `SwitchipyApp.set_dark_interval` (src/app.py:134-162) as a
pure transition on the settings record, taking the dialog-submitted string:
if it matches the shape regex, `dark_start`/`dark_end` are replaced by the
halves around the (unique) hyphen and the config is persisted; otherwise
the config is untouched and a validation failure is printed.  The returned
Bool is true exactly when the value was accepted and persisted. -/
def set_dark_interval (config : Config) (interval : Name) : Config × Bool :=
  if matchesIntervalFormat interval then
    ({ config with
        dark_start := interval.takeWhile (fun c => c != '-')
        dark_end := (interval.dropWhile (fun c => c != '-')).tail }, true)
  else (config, false)

/-- Python's `",".join(l)`. -/
def joinComma : List Name → Name
  | [] => []
  | [x] => x
  | x :: y :: ys => x ++ ',' :: joinComma (y :: ys)

/-- Python's `s.split(",")`: always returns at least one (possibly empty)
piece; `"".split(",") == [""]`. -/
def splitComma : Name → List Name
  | [] => [[]]
  | c :: cs =>
    if c = ',' then [] :: splitComma cs
    else
      match splitComma cs with
      | [] => [[c]]
      | p :: ps => (c :: p) :: ps

/-- Insert into a lexicographically sorted list of names. -/
def insSorted (x : Name) : List Name → List Name
  | [] => [x]
  | y :: ys => if lexLe x y then x :: y :: ys else y :: insSorted x ys

/-- Embedding of Python's `sorted()` on a list of strings (insertion sort;
over the total lexicographic order this produces the unique sorted
arrangement, the same list `sorted()` returns). -/
def sortNames (l : List Name) : List Name := l.foldr insSorted []

/-- Python dict assignment `m[k] = v` on a dict kept as an insertion-ordered
association list: overwrite in place if the key exists, else append. -/
def dictInsert : List (Name × Name) → Name → Name → List (Name × Name)
  | [], k, v => [(k, v)]
  | (k', v') :: rest, k, v =>
    if k' = k then (k, v) :: rest else (k', v') :: dictInsert rest k v

/-- `theme_groups[base].append(theme)` on a `collections.defaultdict(list)`
kept as an insertion-ordered association list. -/
def addToGroup : List (Name × List Name) → Name → Name → List (Name × List Name)
  | [], b, t => [(b, [t])]
  | (b', ts) :: rest, b, t =>
    if b' = b then (b', ts ++ [t]) :: rest else (b', ts) :: addToGroup rest b t

/-- The directory-scanning loop of `generate_theme_map`
(src/switchipy/themes.py:62-74): each existing search directory is given as
the list of its immediate subdirectory names; every name is appended to the
group of its `base_name`. -/
def scanGroups (dirs : List (List Name)) : List (Name × List Name) :=
  dirs.foldl (fun groups dir => dir.foldl (fun g t => addToGroup g (base_name t) t) groups) []

/-- Lookup of a group's member list by base name (empty if absent). -/
def findGroup : List (Name × List Name) → Name → List Name
  | [], _ => []
  | (b', ts) :: rest, b => if b' = b then ts else findGroup rest b

/-- Number of occurrences of a name in a list of names. -/
def countName (x : Name) : List Name → Nat
  | [] => 0
  | y :: ys => (if y = x then 1 else 0) + countName x ys

/-- Total number of occurrences of a name across all search directories. -/
def sumCountName (x : Name) : List (List Name) → Nat
  | [] => 0
  | d :: ds => countName x d + sumCountName x ds

/-- The `light_variants` list of a theme family
(src/switchipy/themes.py:84-88): members NOT matching `dark|black|noir`. -/
def lightOf (ts : List Name) : List Name := ts.filter (fun t => !(isDarkName t))

/-- The `dark_variants` list of a theme family
(src/switchipy/themes.py:84-88): members matching `dark|black|noir`. -/
def darkOf (ts : List Name) : List Name := ts.filter (fun t => isDarkName t)

/-- The body of the mapping loop of `generate_theme_map`
(src/switchipy/themes.py:79-98) for one family `g`: split the members into
light and dark variants; if both lists are nonempty (Python truthiness of
`if light_variants and dark_variants`), insert the two directed entries
between the sorted comma-joined member strings into the dict. -/
def genStep (mapping : List (Name × Name)) (g : Name × List Name) : List (Name × Name) :=
  let light_variants := lightOf g.2
  let dark_variants := darkOf g.2
  if light_variants ≠ [] ∧ dark_variants ≠ [] then
    let light_str := joinComma (sortNames light_variants)
    let dark_str := joinComma (sortNames dark_variants)
    dictInsert (dictInsert mapping light_str dark_str) dark_str light_str
  else mapping

/-- Embedding of `generate_theme_map` (src/switchipy/themes.py:47-100): group
the scanned names into families, then fold the mapping loop over the
families in insertion order starting from the empty dict. -/
def generate_theme_map (dirs : List (List Name)) : List (Name × Name) :=
  (scanGroups dirs).foldl genStep []

/-- The canonical light-side key of a family: sorted light members joined
with commas (`light_str` in the code). -/
def Lstr (g : Name × List Name) : Name := joinComma (sortNames (lightOf g.2))

/-- The canonical dark-side key of a family: sorted dark members joined
with commas (`dark_str` in the code). -/
def Dstr (g : Name × List Name) : Name := joinComma (sortNames (darkOf g.2))

/-- Embedding of `find_counterpart_theme` (src/switchipy/themes.py:128-149):
scan the table entries in order; if the theme is a comma-separated member of
the key return the first member of the value, if a member of the value
return the first member of the key, else continue; `None` when exhausted. -/
def find_counterpart_theme (theme_name : Name) : List (Name × Name) → Option Name
  | [] => none
  | (key, value) :: rest =>
    if theme_name ∈ splitComma key then some ((splitComma value).headD [])
    else if theme_name ∈ splitComma value then some ((splitComma key).headD [])
    else find_counterpart_theme theme_name rest

/-- The environment state the Switch Controller acts on: the active theme
name held by the desktop environment (read/written through xfconf). -/
structure EnvState where
  current : Name
deriving DecidableEq

/-- Embedding of `SwitchipyApp.toggle_theme` (src/app.py:89-108) and of the
CLI `toggle_theme` (src/switchipy/cli.py:43-56): read the current theme,
look up its counterpart; if found apply it (the new environment state) and
report it, else report no-counterpart and leave the environment untouched. -/
def toggle_theme (theme_map : List (Name × Name)) (st : EnvState) : EnvState × Option Name :=
  match find_counterpart_theme st.current theme_map with
  | some counterpart => ({ current := counterpart }, some counterpart)
  | none => (st, none)

/-- The two table entries a single family contributes (none when one of its
sides is empty) — the body of the second loop of `generate_theme_map`. -/
def entriesOf (g : Name × List Name) : List (Name × Name) :=
  if lightOf g.2 ≠ [] ∧ darkOf g.2 ≠ [] then
    [(Lstr g, Dstr g), (Dstr g, Lstr g)]
  else []

/-- Concatenation of the entries contributed by each family in order. -/
def flatEntries : List (Name × List Name) → List (Name × Name)
  | [] => []
  | g :: gs => entriesOf g ++ flatEntries gs

/-- Well-formedness of a grouping produced by `scanGroups`: base names are
pairwise distinct, every group is nonempty, and every member has the
group's base name and comes from the scanned pool. -/
def GroupsWF (pool : List Name) (gs : List (Name × List Name)) : Prop :=
  (gs.map Prod.fst).Nodup ∧
  ∀ g ∈ gs, g.2 ≠ [] ∧ ∀ x ∈ g.2, base_name x = g.1 ∧ x ∈ pool

/-- All subdirectory names seen across the search directories, in order. -/
def allThemes (dirs : List (List Name)) : List Name :=
  dirs.foldr (fun d acc => d ++ acc) []

/-- No scanned theme name contains a comma (the separator of the table's
canonical keys). -/
def NoComma (dirs : List (List Name)) : Prop := ∀ t ∈ allThemes dirs, ',' ∉ t

theorem lexLt_iff_lex : ∀ a b : Name, lexLt a b = true ↔ List.Lex (· < ·) a b := by
  intro a
  induction a with
  | nil =>
    intro b
    cases b with
    | nil => simp [lexLt]
    | cons y ys => simpa [lexLt] using List.Lex.nil
  | cons x xs ih =>
    intro b
    cases b with
    | nil =>
      simp [lexLt]
    | cons y ys =>
      constructor
      · intro h
        by_cases hxy : x < y
        · exact List.Lex.rel hxy
        · by_cases hxe : x = y
          · subst hxe
            have : lexLt xs ys = true := by
              simpa [lexLt, hxy] using h
            exact List.Lex.cons ((ih ys).mp this)
          · simp [lexLt, hxy, hxe] at h
      · intro h
        cases h with
        | rel hr => simp [lexLt, hr]
        | cons htail =>
          have : lexLt xs ys = true := (ih ys).mpr htail
          simp [lexLt, this]

theorem lexLt_irrefl : ∀ a : Name, lexLt a a = false := by
  intro a
  induction a with
  | nil => rfl
  | cons x xs ih => simp [lexLt, ih]

theorem lexLt_trichotomy (a b : Name) :
    lexLt a b = true ∨ a = b ∨ lexLt b a = true := by
  induction a generalizing b with
  | nil =>
    cases b with
    | nil => exact Or.inr (Or.inl rfl)
    | cons y ys => exact Or.inl (by simp [lexLt])
  | cons x xs ih =>
    cases b with
    | nil => exact Or.inr (Or.inr (by simp [lexLt]))
    | cons y ys =>
      rcases lt_trichotomy x y with hxy | hxy | hxy
      · exact Or.inl (by simp [lexLt, hxy])
      · subst hxy
        rcases ih ys with h | h | h
        · exact Or.inl (by simp [lexLt, h])
        · exact Or.inr (Or.inl (by rw [h]))
        · exact Or.inr (Or.inr (by simp [lexLt, h]))
      · refine Or.inr (Or.inr ?_)
        have hne : y ≠ x := ne_of_lt hxy
        simp [lexLt, hxy]

/-- `C1`: the dark-time evaluator on HH:MM strings behaves exactly as the spec
states, with all comparisons lexicographic (`List.Lex (· < ·)` on the
character lists): when `start < end` lexically it returns `true` iff
`start ≤ now < end` (start inclusive, end exclusive); when `start ≥ end`
(wrap-around) it returns `true` iff `now ≥ start ∨ now < end`; and in the
degenerate case `start = end` it returns `true` for every `now`. -/
theorem is_dark_time_spec (s e n : Name) :
    (is_dark_time s e n = true ↔
      ((List.Lex (· < ·) s e ∧ ((s = n ∨ List.Lex (· < ·) s n) ∧ List.Lex (· < ·) n e)) ∨
       (¬ List.Lex (· < ·) s e ∧ ((s = n ∨ List.Lex (· < ·) s n) ∨ List.Lex (· < ·) n e)))) ∧
    (s = e → is_dark_time s e n = true) := by
  have hle : ∀ a b : Name, lexLe a b = true ↔ (a = b ∨ List.Lex (· < ·) a b) := by
    intro a b
    constructor
    · intro h
      rcases Bool.or_eq_true_iff.mp h with h | h
      · exact Or.inr ((lexLt_iff_lex a b).mp h)
      · exact Or.inl (by simpa using h)
    · intro h
      rcases h with h | h
      · subst h; simp [lexLe]
      · simp [lexLe, (lexLt_iff_lex a b).mpr h]
  constructor
  · by_cases hse : lexLt s e = true
    · have hlex : List.Lex (· < ·) s e := (lexLt_iff_lex s e).mp hse
      simp only [is_dark_time, hse, if_true]
      constructor
      · intro h
        rcases Bool.and_eq_true_iff.mp h with ⟨h1, h2⟩
        exact Or.inl ⟨hlex, (hle s n).mp h1, (lexLt_iff_lex n e).mp h2⟩
      · intro h
        rcases h with ⟨_, h1, h2⟩ | ⟨hn, _⟩
        · exact Bool.and_eq_true_iff.mpr ⟨(hle s n).mpr h1, (lexLt_iff_lex n e).mpr h2⟩
        · exact absurd hlex hn
    · have hnlex : ¬ List.Lex (· < ·) s e := fun h => hse ((lexLt_iff_lex s e).mpr h)
      simp only [is_dark_time, hse, if_false]
      constructor
      · intro h
        rcases Bool.or_eq_true_iff.mp h with h | h
        · exact Or.inr ⟨hnlex, Or.inl ((hle s n).mp h)⟩
        · exact Or.inr ⟨hnlex, Or.inr ((lexLt_iff_lex n e).mp h)⟩
      · intro h
        rcases h with ⟨hl, _⟩ | ⟨_, h | h⟩
        · exact absurd hl hnlex
        · exact Bool.or_eq_true_iff.mpr (Or.inl ((hle s n).mpr h))
        · exact Bool.or_eq_true_iff.mpr (Or.inr ((lexLt_iff_lex n e).mpr h))
  · intro hse
    subst hse
    have hss : lexLt s s = false := lexLt_irrefl s
    simp only [is_dark_time, hss, Bool.false_eq_true, if_false]
    rcases lexLt_trichotomy s n with h | h | h
    · simp [lexLe, h]
    · subst h; simp [lexLe]
    · simp [h]

/-- Witness for `C1` at a concrete input: the degenerate window
10:00-10:00 is dark at 17:23. -/
theorem is_dark_time_spec_witness :
    is_dark_time (("10:00").data) (("10:00").data) (("17:23").data) = true :=
  (is_dark_time_spec (("10:00").data) (("10:00").data) (("17:23").data)).2 rfl

theorem startsWithCI_iff (pat : List Char) :
    ∀ s : Name, startsWithCI pat s = true ↔
      ∃ m r : List Char, s = m ++ r ∧ m.map Char.toLower = pat := by
  induction pat with
  | nil =>
    intro s
    simp only [startsWithCI, true_iff]
    exact ⟨[], s, rfl, rfl⟩
  | cons p ps ih =>
    intro s
    cases s with
    | nil =>
      constructor
      · intro h; exact absurd h (by simp [startsWithCI])
      · rintro ⟨m, r, hs, hm⟩
        cases m with
        | nil => cases hm
        | cons c m' => simp at hs
    | cons c cs =>
      constructor
      · intro h
        rcases Bool.and_eq_true_iff.mp h with ⟨h1, h2⟩
        rcases (ih cs).mp h2 with ⟨m', r, hcs, hm'⟩
        refine ⟨c :: m', r, by rw [hcs]; rfl, ?_⟩
        simp [hm', beq_iff_eq.mp h1]
      · rintro ⟨m, r, hs, hm⟩
        cases m with
        | nil => cases hm
        | cons c' m' =>
          have hc : c' = c ∧ cs = m' ++ r := by
            constructor
            · exact (List.cons.injEq c cs c' (m' ++ r) ▸ hs).1.symm
            · exact (List.cons.injEq c cs c' (m' ++ r) ▸ hs).2
          rcases hc with ⟨hc1, hc2⟩
          subst hc1
          have hm1 : c'.toLower = p := by
            simpa using congrArg (fun l => l.headD ' ') hm
          have hm2 : m'.map Char.toLower = ps := by
            simpa using congrArg List.tail hm
          refine Bool.and_eq_true_iff.mpr ⟨beq_iff_eq.mpr hm1, ?_⟩
          exact (ih cs).mpr ⟨m', r, hc2, hm2⟩

theorem containsCI_iff (pat : List Char) :
    ∀ s : Name, containsCI pat s = true ↔ OccursCI pat s := by
  intro s
  induction s with
  | nil =>
    simp only [containsCI]
    constructor
    · intro h
      rcases (startsWithCI_iff pat []).mp h with ⟨m, r, hs, hm⟩
      exact ⟨[], m, r, hs, hm⟩
    · rintro ⟨l, m, r, hs, hm⟩
      have hl : l = [] ∧ m = [] ∧ r = [] := by
        constructor
        · exact List.eq_nil_of_length_eq_zero (by
            have := congrArg List.length hs
            simp at this
            omega)
        · constructor
          · exact List.eq_nil_of_length_eq_zero (by
              have := congrArg List.length hs
              simp at this
              omega)
          · exact List.eq_nil_of_length_eq_zero (by
              have := congrArg List.length hs
              simp at this
              omega)
      rcases hl with ⟨h1, h2, h3⟩
      subst h1; subst h2; subst h3
      exact (startsWithCI_iff pat []).mpr ⟨[], [], rfl, hm⟩
  | cons c cs ih =>
    simp only [containsCI]
    constructor
    · intro h
      rcases Bool.or_eq_true_iff.mp h with h | h
      · rcases (startsWithCI_iff pat (c :: cs)).mp h with ⟨m, r, hs, hm⟩
        exact ⟨[], m, r, by simpa using hs, hm⟩
      · rcases ih.mp h with ⟨l, m, r, hs, hm⟩
        exact ⟨c :: l, m, r, by rw [hs]; rfl, hm⟩
    · rintro ⟨l, m, r, hs, hm⟩
      cases l with
      | nil =>
        refine Bool.or_eq_true_iff.mpr (Or.inl ?_)
        exact (startsWithCI_iff pat (c :: cs)).mpr ⟨m, r, by simpa using hs, hm⟩
      | cons c' l' =>
        refine Bool.or_eq_true_iff.mpr (Or.inr ?_)
        have hc : c' = c ∧ cs = l' ++ m ++ r := by
          have h1 := (List.cons.injEq c cs c' (l' ++ m ++ r) ▸ hs)
          exact ⟨h1.1.symm, h1.2⟩
        rcases hc with ⟨hc1, hc2⟩
        exact ih.mpr ⟨l', m, r, hc2, hm⟩

theorem isDarkName_iff (t : Name) :
    isDarkName t = true ↔ (OccursCI darkW t ∨ OccursCI blackW t ∨ OccursCI noirW t) := by
  simp [isDarkName, containsCI_iff, or_assoc]

/-- `C6`: `get_current_mode` is total with no failure mode: it returns dark
exactly when the name contains "dark", "black", or "noir" as a
case-insensitive unanchored substring, and returns light for every other
string. -/
theorem get_current_mode_spec (t : Name) :
    (get_current_mode t = Mode.dark ↔
      (OccursCI darkW t ∨ OccursCI blackW t ∨ OccursCI noirW t)) ∧
    (get_current_mode t = Mode.light ↔
      ¬ (OccursCI darkW t ∨ OccursCI blackW t ∨ OccursCI noirW t)) := by
  constructor
  · constructor
    · intro hd
      by_cases h : isDarkName t
      · exact (isDarkName_iff t).mp h
      · simp [get_current_mode, h] at hd
    · intro ho
      simp [get_current_mode, (isDarkName_iff t).mpr ho]
  · constructor
    · intro hl ho
      simp [get_current_mode, (isDarkName_iff t).mpr ho] at hl
    · intro ho
      have h : isDarkName t = false := by
        cases hh : isDarkName t
        · rfl
        · exact absurd ((isDarkName_iff t).mp hh) ho
      simp [get_current_mode, h]

/-- Counterexample to `C5`: "Adwaita" and "Adwaita-light" differ only by the
recognized mode suffix "-light" appended, yet the classifier assigns BOTH
the light mode, not opposite modes. -/
theorem get_current_mode_suffix_cex :
    (("Adwaita-light").data = ("Adwaita").data ++ '-' :: lightW) ∧
    get_current_mode (("Adwaita").data) = Mode.light ∧
    get_current_mode (("Adwaita-light").data) = Mode.light := by
  refine ⟨rfl, ?_, ?_⟩ <;> decide

theorem containsCI_append_right (pat : List Char) (u : Name) :
    ∀ t : Name, containsCI pat u = true → containsCI pat (t ++ u) = true := by
  intro t h
  induction t with
  | nil => exact h
  | cons c t' ih =>
    show (startsWithCI pat (c :: (t' ++ u)) || containsCI pat (t' ++ u)) = true
    exact Bool.or_eq_true_iff.mpr (Or.inr ih)

theorem startsWithCI_append_dash (w : List Char) (hw : '-' ∉ w) :
    ∀ s v : Name, startsWithCI w (s ++ '-' :: v) = true → startsWithCI w s = true := by
  induction w with
  | nil => intro s v _; rfl
  | cons p ps ih =>
    intro s v h
    cases s with
    | nil =>
      exfalso
      have hp : p ≠ '-' := fun hp => hw (by simp [hp])
      have : ('-'.toLower == p) = false := by
        have : '-'.toLower = '-' := rfl
        rw [this]
        exact beq_eq_false_iff_ne.mpr (fun he => hp he.symm)
      simp only [List.nil_append, startsWithCI, this, Bool.false_and] at h
      exact Bool.false_ne_true h
    | cons c cs =>
      have hph : '-' ∉ ps := fun hm => hw (List.mem_cons_of_mem p hm)
      have h' : ((c.toLower == p) && startsWithCI ps (cs ++ '-' :: v)) = true := h
      rcases Bool.and_eq_true_iff.mp h' with ⟨h1, h2⟩
      exact Bool.and_eq_true_iff.mpr ⟨h1, ih hph cs v h2⟩

theorem containsCI_append_dash (w : List Char) (hw : '-' ∉ w) (v : Name)
    (hv : containsCI w ('-' :: v) = false) :
    ∀ t : Name, containsCI w t = false → containsCI w (t ++ '-' :: v) = false := by
  intro t
  induction t with
  | nil => intro _; exact hv
  | cons c t' ih =>
    intro h
    have h' : (startsWithCI w (c :: t') || containsCI w t') = false := h
    rcases Bool.or_eq_false_iff.mp h' with ⟨hsw, hct⟩
    show (startsWithCI w (c :: (t' ++ '-' :: v)) || containsCI w (t' ++ '-' :: v)) = false
    refine Bool.or_eq_false_iff.mpr ⟨?_, ih hct⟩
    cases hsw' : startsWithCI w (c :: (t' ++ '-' :: v)) with
    | false => rfl
    | true =>
      exfalso
      have := startsWithCI_append_dash w hw (c :: t') v (by simpa using hsw')
      rw [this] at hsw
      exact absurd hsw (by simp)

/-- `C5` as amended: for pairs differing by a DARK suffix (-dark, -black,
-noir), the classifier assigns opposite modes provided the base name itself
classifies light; appending "-light" never changes the classification, so a
light base and its "-light" variant share the same (light) mode rather than
getting opposite modes. -/
theorem get_current_mode_suffix_amended (t : Name)
    (h : get_current_mode t = Mode.light) :
    get_current_mode (t ++ '-' :: darkW) = Mode.dark ∧
    get_current_mode (t ++ '-' :: blackW) = Mode.dark ∧
    get_current_mode (t ++ '-' :: noirW) = Mode.dark ∧
    get_current_mode (t ++ '-' :: lightW) = Mode.light := by
  have hdn : isDarkName t = false := by
    cases hh : isDarkName t
    · rfl
    · simp [get_current_mode, hh] at h
  have hsplit : containsCI darkW t = false ∧ containsCI blackW t = false ∧
      containsCI noirW t = false := by
    have h1 : (containsCI darkW t || containsCI blackW t || containsCI noirW t) = false := hdn
    rcases Bool.or_eq_false_iff.mp h1 with ⟨h2, h3⟩
    rcases Bool.or_eq_false_iff.mp h2 with ⟨h4, h5⟩
    exact ⟨h4, h5, h3⟩
  refine ⟨?_, ?_, ?_, ?_⟩
  · have : containsCI darkW (t ++ '-' :: darkW) = true :=
      containsCI_append_right darkW ('-' :: darkW) t (by decide)
    simp [get_current_mode, isDarkName, this]
  · have : containsCI blackW (t ++ '-' :: blackW) = true :=
      containsCI_append_right blackW ('-' :: blackW) t (by decide)
    simp [get_current_mode, isDarkName, this]
  · have : containsCI noirW (t ++ '-' :: noirW) = true :=
      containsCI_append_right noirW ('-' :: noirW) t (by decide)
    simp [get_current_mode, isDarkName, this]
  · have hd : containsCI darkW (t ++ '-' :: lightW) = false :=
      containsCI_append_dash darkW (by decide) lightW (by decide) t hsplit.1
    have hb : containsCI blackW (t ++ '-' :: lightW) = false :=
      containsCI_append_dash blackW (by decide) lightW (by decide) t hsplit.2.1
    have hn : containsCI noirW (t ++ '-' :: lightW) = false :=
      containsCI_append_dash noirW (by decide) lightW (by decide) t hsplit.2.2
    simp [get_current_mode, isDarkName, hd, hb, hn]

/-- Witness for the amended `C5` at a concrete input: "Adwaita" is light
and "Adwaita-dark" is dark. -/
theorem get_current_mode_suffix_amended_witness :
    get_current_mode (("Adwaita").data ++ '-' :: darkW) = Mode.dark :=
  (get_current_mode_suffix_amended (("Adwaita").data) (by decide)).1

theorem stripPre_length_le (ps : List Char) :
    ∀ (cs r : Name), stripPre ps cs = some r → r.length ≤ cs.length := by
  induction ps with
  | nil =>
    intro cs r h
    cases h
    exact le_rfl
  | cons p ps ih =>
    intro cs r h
    cases cs with
    | nil => cases h
    | cons c cs' =>
      by_cases hc : c.toLower = p
      · simp only [stripPre, if_pos hc] at h
        have := ih cs' r h
        simp only [List.length_cons]
        omega
      · simp [stripPre, hc] at h

theorem matchSuffixAt_length (cs r : Name) (h : matchSuffixAt cs = some r) :
    r.length < cs.length := by
  cases cs with
  | nil => simp [matchSuffixAt] at h
  | cons c rest =>
    have hlt : ∀ (w : List Char) (x : Name), stripPre w rest = some x →
        x.length < (c :: rest).length := by
      intro w x hx
      have := stripPre_length_le w rest x hx
      simp only [List.length_cons]
      omega
    by_cases hc : c = '-'
    · simp only [matchSuffixAt, if_pos hc] at h
      split at h
      · rename_i r1 heq
        cases h
        exact hlt darkW r heq
      · split at h
        · rename_i r1 heq
          cases h
          exact hlt lightW r heq
        · split at h
          · rename_i r1 heq
            cases h
            exact hlt blackW r heq
          · exact hlt noirW r h
    · simp [matchSuffixAt, hc] at h

theorem base_nameFuel_irrel :
    ∀ (f1 f2 : Nat) (cs : Name), cs.length ≤ f1 → cs.length ≤ f2 →
      base_nameFuel f1 cs = base_nameFuel f2 cs := by
  intro f1
  induction f1 with
  | zero =>
    intro f2 cs h1 _
    have hcs : cs = [] := List.eq_nil_of_length_eq_zero (Nat.le_zero.mp h1)
    subst hcs
    cases f2 with
    | zero => rfl
    | succ f2' => simp [base_nameFuel, matchSuffixAt]
  | succ f1' ih =>
    intro f2 cs h1 h2
    cases f2 with
    | zero =>
      have hcs : cs = [] := List.eq_nil_of_length_eq_zero (Nat.le_zero.mp h2)
      subst hcs
      simp [base_nameFuel, matchSuffixAt]
    | succ f2' =>
      cases hm : matchSuffixAt cs with
      | some rest =>
        have hr := matchSuffixAt_length cs rest hm
        simp only [base_nameFuel, hm]
        exact ih f2' rest (by omega) (by omega)
      | none =>
        cases cs with
        | nil => rfl
        | cons c cs' =>
          simp only [base_nameFuel, hm]
          have hl : cs'.length + 1 ≤ f1' + 1 := h1
          have hl2 : cs'.length + 1 ≤ f2' + 1 := h2
          exact congrArg (c :: ·) (ih f2' cs' (by omega) (by omega))

theorem base_name_eq (cs : Name) :
    base_name cs =
      match matchSuffixAt cs with
      | some rest => base_name rest
      | none =>
        match cs with
        | [] => []
        | c :: cs' => c :: base_name cs' := by
  cases cs with
  | nil => rfl
  | cons c cs' =>
    cases hm : matchSuffixAt (c :: cs') with
    | some rest =>
      have hr := matchSuffixAt_length (c :: cs') rest hm
      show base_nameFuel (c :: cs').length (c :: cs') = base_name rest
      simp only [List.length_cons, base_nameFuel, hm]
      exact base_nameFuel_irrel cs'.length rest.length rest
        (by simp only [List.length_cons] at hr; omega) le_rfl
    | none =>
      show base_nameFuel (c :: cs').length (c :: cs') = _
      simp only [List.length_cons, base_nameFuel, hm]
      rfl

theorem matchSuffixAt_nodash (c : Char) (cs : Name) (hc : c ≠ '-') :
    matchSuffixAt (c :: cs) = none := by
  simp [matchSuffixAt, hc]

theorem base_name_cons_nodash (c : Char) (cs : Name) (hc : c ≠ '-') :
    base_name (c :: cs) = c :: base_name cs := by
  rw [base_name_eq (c :: cs), matchSuffixAt_nodash c cs hc]

theorem base_name_append_nodash (b t : Name) (hb : ∀ c ∈ b, c ≠ '-') :
    base_name (b ++ t) = b ++ base_name t := by
  induction b with
  | nil => rfl
  | cons c b' ih =>
    have hc : c ≠ '-' := hb c (List.mem_cons_self c b')
    have hb' : ∀ x ∈ b', x ≠ '-' := fun x hx => hb x (List.mem_cons_of_mem c hx)
    show base_name (c :: (b' ++ t)) = c :: (b' ++ base_name t)
    rw [base_name_cons_nodash c (b' ++ t) hc, ih hb']

/-- Counterexample to `C2`: on "A-dark-light" the code strips BOTH suffix
occurrences, yielding "A", whereas the claimed strip-only-the-first
behavior would keep the second occurrence and yield "A-light". -/
theorem base_name_first_cex :
    base_name (("A-dark-light").data) = ("A").data ∧
    base_name_first (("A-dark-light").data) = ("A-light").data ∧
    base_name (("A-dark-light").data) ≠ base_name_first (("A-dark-light").data) := by
  refine ⟨?_, ?_, ?_⟩ <;> decide

/-- `C2` as amended: the base-name derivation removes EVERY non-overlapping
matching occurrence of a mode suffix in one left-to-right pass, not only the
first; in particular a hyphen-free base followed by two suffix occurrences
loses both. -/
theorem base_name_removes_all (b s1 s2 : List Char)
    (hb : ∀ c ∈ b, c ≠ '-')
    (h1 : s1 ∈ [darkW, lightW, blackW, noirW])
    (h2 : s2 ∈ [darkW, lightW, blackW, noirW]) :
    base_name (b ++ '-' :: s1 ++ '-' :: s2) = b := by
  have htail : base_name ('-' :: s1 ++ '-' :: s2) = [] := by
    fin_cases h1 <;> fin_cases h2 <;> decide
  have hsplit : b ++ '-' :: s1 ++ '-' :: s2 = b ++ ('-' :: s1 ++ '-' :: s2) := by
    simp
  rw [hsplit, base_name_append_nodash b ('-' :: s1 ++ '-' :: s2) hb, htail]
  simp

/-- Witness for the amended `C2` at a concrete input:
"A-dark-light" strips down to "A". -/
theorem base_name_removes_all_witness :
    base_name (("A").data ++ '-' :: darkW ++ '-' :: lightW) = ("A").data :=
  base_name_removes_all (("A").data) darkW lightW (by decide) (by decide) (by decide)

/-- Counterexample to `C3`: the interval string "25:99-05:00" is not a
well-formed HH:MM-HH:MM value, yet the handler ACCEPTS it (the validation
only checks the digit shape), overwriting `dark_start` with "25:99",
persisting, and reporting success rather than leaving the settings
unchanged. -/
theorem set_dark_interval_cex :
    (set_dark_interval DEFAULT_CONFIG (("25:99-05:00").data)).2 = true ∧
    (set_dark_interval DEFAULT_CONFIG (("25:99-05:00").data)).1.dark_start = ("25:99").data ∧
    (set_dark_interval DEFAULT_CONFIG (("25:99-05:00").data)).1.dark_end = ("05:00").data ∧
    (set_dark_interval DEFAULT_CONFIG (("25:99-05:00").data)).1 ≠ DEFAULT_CONFIG := by
  refine ⟨?_, ?_, ?_, ?_⟩ <;> decide

/-- `C3` as amended: an interval string is rejected — settings completely
unchanged, nothing persisted, validation failure reported — exactly when it
fails the SHAPE check DD:DD-DD:DD (eleven characters, digit positions and
separators); a string of that shape is accepted and persisted even when its
fields are out of range as clock times (e.g. "25:99-05:00"). -/
theorem set_dark_interval_amended (config : Config) (interval : Name)
    (h : matchesIntervalFormat interval = false) :
    set_dark_interval config interval = (config, false) := by
  simp [set_dark_interval, h]

/-- Witness for the amended `C3` at a concrete input: "1900-0500" fails the
shape check and leaves the settings unchanged. -/
theorem set_dark_interval_amended_witness :
    set_dark_interval DEFAULT_CONFIG (("1900-0500").data) = (DEFAULT_CONFIG, false) :=
  set_dark_interval_amended DEFAULT_CONFIG (("1900-0500").data) (by decide)

theorem find_counterpart_none (t : Name) :
    ∀ m : List (Name × Name),
      (∀ kv ∈ m, t ∉ splitComma kv.1 ∧ t ∉ splitComma kv.2) →
      find_counterpart_theme t m = none := by
  intro m
  induction m with
  | nil => intro _; rfl
  | cons kv rest ih =>
    intro h
    obtain ⟨key, value⟩ := kv
    obtain ⟨h1, h2⟩ := h (key, value) (List.mem_cons_self _ rest)
    show (if t ∈ splitComma key then some ((splitComma value).headD [])
      else if t ∈ splitComma value then some ((splitComma key).headD [])
      else find_counterpart_theme t rest) = none
    rw [if_neg h1, if_neg h2]
    exact ih (fun kv hkv => h kv (List.mem_cons_of_mem _ hkv))

/-- `C9`: when the current theme appears in no entry of the pairing table on
either side, `toggle_theme` reports a no-counterpart result and performs no
state change: the environment keeps its active theme and no theme is
applied. -/
theorem toggle_theme_no_counterpart (theme_map : List (Name × Name)) (st : EnvState)
    (h : ∀ kv ∈ theme_map, st.current ∉ splitComma kv.1 ∧ st.current ∉ splitComma kv.2) :
    toggle_theme theme_map st = (st, none) := by
  simp [toggle_theme, find_counterpart_none st.current theme_map h]

/-- Witness for `C9` at a concrete input: theme "B" is absent from the table
pairing "A" with "A-dark", and toggling leaves the environment on "B". -/
theorem toggle_theme_no_counterpart_witness :
    toggle_theme [((("A").data), (("A-dark").data))] { current := ("B").data } =
      ({ current := ("B").data }, none) :=
  toggle_theme_no_counterpart [((("A").data), (("A-dark").data))]
    { current := ("B").data } (by decide)

/-- Counterexample to `C4`: the theme "Adwaita" present in two search paths
is appended to its family once per path (no set semantics), so the light
member list and the canonical key duplicate it: the key is
"Adwaita,Adwaita", whose comma-split is not duplicate-free. -/
theorem generate_theme_map_dup_cex :
    generate_theme_map [[("Adwaita").data, ("Adwaita-dark").data], [("Adwaita").data]] =
      [((("Adwaita,Adwaita").data), (("Adwaita-dark").data)),
       ((("Adwaita-dark").data), (("Adwaita,Adwaita").data))] ∧
    ¬ (splitComma (("Adwaita,Adwaita").data)).Nodup := by
  refine ⟨?_, ?_⟩ <;> decide

theorem countName_append (t : Name) (l : List Name) (x : Name) :
    countName t (l ++ [x]) = countName t l + (if x = t then 1 else 0) := by
  induction l with
  | nil => simp [countName]
  | cons y ys ih =>
    show (if y = t then 1 else 0) + countName t (ys ++ [x]) = _
    rw [ih]
    show _ = (if y = t then 1 else 0) + countName t ys + _
    omega

theorem findGroup_addToGroup_same (b : Name) (x : Name) :
    ∀ g : List (Name × List Name),
      findGroup (addToGroup g b x) b = findGroup g b ++ [x] := by
  intro g
  induction g with
  | nil => simp [addToGroup, findGroup]
  | cons bt rest ih =>
    obtain ⟨b', ts⟩ := bt
    by_cases hb : b' = b
    · subst hb
      simp [addToGroup, findGroup]
    · simp [addToGroup, findGroup, hb, ih]

theorem findGroup_addToGroup_other (b b'' : Name) (x : Name) (hne : b'' ≠ b) :
    ∀ g : List (Name × List Name),
      findGroup (addToGroup g b x) b'' = findGroup g b'' := by
  intro g
  induction g with
  | nil =>
    simp only [addToGroup, findGroup]
    rw [if_neg (fun h => hne (Eq.symm h))]
  | cons bt rest ih =>
    obtain ⟨b', ts⟩ := bt
    by_cases hb : b' = b
    · subst hb
      have : b' ≠ b'' := fun h => hne h.symm
      simp [addToGroup, findGroup, this]
    · simp only [addToGroup, if_neg hb, findGroup]
      by_cases hb2 : b' = b''
      · simp [hb2]
      · simp [hb2, ih]

theorem countName_addToGroup (g : List (Name × List Name)) (x t : Name) :
    countName t (findGroup (addToGroup g (base_name x) x) (base_name t)) =
      countName t (findGroup g (base_name t)) + (if x = t then 1 else 0) := by
  by_cases hb : base_name t = base_name x
  · rw [hb, findGroup_addToGroup_same (base_name x) x g, countName_append, ← hb]
  · have hxt : x ≠ t := fun he => hb (by rw [he])
    rw [findGroup_addToGroup_other (base_name x) (base_name t) x hb g]
    simp [hxt]

theorem countName_foldDir (t : Name) (l : List Name) :
    ∀ g : List (Name × List Name),
      countName t
        (findGroup (l.foldl (fun g' x => addToGroup g' (base_name x) x) g) (base_name t)) =
      countName t (findGroup g (base_name t)) + countName t l := by
  induction l with
  | nil => intro g; simp [countName]
  | cons x xs ih =>
    intro g
    show countName t
        (findGroup (xs.foldl (fun g' x => addToGroup g' (base_name x) x)
          (addToGroup g (base_name x) x)) (base_name t)) = _
    rw [ih (addToGroup g (base_name x) x), countName_addToGroup]
    show _ = countName t (findGroup g (base_name t)) + ((if x = t then 1 else 0) + countName t xs)
    omega

/-- `C4` as amended: duplicate directory names across search paths are NOT
collapsed — the scan has list semantics, so a theme name occurring in
several search paths is appended to its family's member list once per
occurrence, and the duplicates reach the comma-joined canonical keys. -/
theorem scanGroups_count (dirs : List (List Name)) (t : Name) :
    countName t (findGroup (scanGroups dirs) (base_name t)) = sumCountName t dirs := by
  have aux : ∀ (ds : List (List Name)) (g : List (Name × List Name)),
      countName t
        (findGroup (ds.foldl (fun groups dir =>
          dir.foldl (fun g' x => addToGroup g' (base_name x) x) groups) g) (base_name t)) =
      countName t (findGroup g (base_name t)) + sumCountName t ds := by
    intro ds
    induction ds with
    | nil => intro g; simp [sumCountName]
    | cons d rest ih =>
      intro g
      show countName t
          (findGroup (rest.foldl _
            (d.foldl (fun g' x => addToGroup g' (base_name x) x) g)) (base_name t)) = _
      rw [ih, countName_foldDir]
      show _ = countName t (findGroup g (base_name t)) + (countName t d + sumCountName t rest)
      omega
  have := aux dirs []
  simpa [scanGroups, findGroup, countName] using this

theorem splitComma_ne_nil : ∀ s : Name, splitComma s ≠ [] := by
  intro s
  induction s with
  | nil => simp [splitComma]
  | cons c cs ih =>
    by_cases hc : c = ','
    · simp [splitComma, hc]
    · cases hs : splitComma cs with
      | nil => exact absurd hs ih
      | cons p ps => simp [splitComma, hc, hs]

theorem splitComma_nocomma : ∀ s : Name, ',' ∉ s → splitComma s = [s] := by
  intro s
  induction s with
  | nil => intro _; rfl
  | cons c cs ih =>
    intro h
    have hc : c ≠ ',' := fun he => h (by simp [he])
    have hcs : ',' ∉ cs := fun hm => h (List.mem_cons_of_mem c hm)
    simp [splitComma, hc, ih hcs]

theorem splitComma_append (x : Name) (hx : ',' ∉ x) (r : Name) :
    splitComma (x ++ ',' :: r) = x :: splitComma r := by
  induction x with
  | nil => simp [splitComma]
  | cons c x' ih =>
    have hc : c ≠ ',' := fun he => hx (by simp [he])
    have hx' : ',' ∉ x' := fun hm => hx (List.mem_cons_of_mem c hm)
    show splitComma (c :: (x' ++ ',' :: r)) = (c :: x') :: splitComma r
    rw [splitComma, if_neg hc, ih hx']

theorem splitComma_joinComma : ∀ l : List Name, l ≠ [] → (∀ x ∈ l, ',' ∉ x) →
    splitComma (joinComma l) = l := by
  intro l
  induction l with
  | nil => intro h; exact absurd rfl h
  | cons x xs ih =>
    intro _ hnc
    cases xs with
    | nil => exact splitComma_nocomma x (hnc x (by simp))
    | cons y ys =>
      show splitComma (x ++ ',' :: joinComma (y :: ys)) = x :: y :: ys
      rw [splitComma_append x (hnc x (by simp)) (joinComma (y :: ys))]
      rw [ih (by simp) (fun z hz => hnc z (List.mem_cons_of_mem x hz))]

theorem mem_insSorted (x y : Name) : ∀ l : List Name, x ∈ insSorted y l ↔ x = y ∨ x ∈ l := by
  intro l
  induction l with
  | nil => simp [insSorted]
  | cons z zs ih =>
    by_cases hle : lexLe y z = true
    · simp [insSorted, hle]
    · simp only [insSorted, hle, Bool.false_eq_true, if_false, List.mem_cons, ih]
      tauto

theorem mem_sortNames (x : Name) : ∀ l : List Name, x ∈ sortNames l ↔ x ∈ l := by
  intro l
  induction l with
  | nil => simp [sortNames]
  | cons y ys ih =>
    show x ∈ insSorted y (sortNames ys) ↔ _
    rw [mem_insSorted]
    simp [ih]

theorem insSorted_ne_nil (y : Name) : ∀ l : List Name, insSorted y l ≠ [] := by
  intro l
  cases l with
  | nil => simp [insSorted]
  | cons z zs =>
    by_cases hle : lexLe y z = true <;> simp [insSorted, hle]

theorem sortNames_ne_nil (l : List Name) (h : l ≠ []) : sortNames l ≠ [] := by
  cases l with
  | nil => exact absurd rfl h
  | cons y ys => exact insSorted_ne_nil y (sortNames ys)

theorem mem_lightOf (x : Name) (ts : List Name) :
    x ∈ lightOf ts ↔ x ∈ ts ∧ isDarkName x = false := by
  simp [lightOf, List.mem_filter]

theorem mem_darkOf (x : Name) (ts : List Name) :
    x ∈ darkOf ts ↔ x ∈ ts ∧ isDarkName x = true := by
  simp [darkOf, List.mem_filter]

theorem mem_lightOf_or_darkOf (x : Name) (ts : List Name) (h : x ∈ ts) :
    x ∈ lightOf ts ∨ x ∈ darkOf ts := by
  cases hd : isDarkName x with
  | false => exact Or.inl ((mem_lightOf x ts).mpr ⟨h, hd⟩)
  | true => exact Or.inr ((mem_darkOf x ts).mpr ⟨h, hd⟩)

theorem sides_ne_nil_of_ne_nil (ts : List Name) (h : ts ≠ []) :
    lightOf ts ≠ [] ∨ darkOf ts ≠ [] := by
  cases ts with
  | nil => exact absurd rfl h
  | cons x xs =>
    rcases mem_lightOf_or_darkOf x (x :: xs) (by simp) with hm | hm
    · exact Or.inl (List.ne_nil_of_mem hm)
    · exact Or.inr (List.ne_nil_of_mem hm)

theorem headD_mem (l : List Name) (h : l ≠ []) : l.headD [] ∈ l := by
  cases l with
  | nil => exact absurd rfl h
  | cons x xs => simp

theorem dictInsert_not_mem (k v : Name) :
    ∀ m : List (Name × Name), k ∉ m.map Prod.fst → dictInsert m k v = m ++ [(k, v)] := by
  intro m
  induction m with
  | nil => intro _; rfl
  | cons kv rest ih =>
    intro h
    obtain ⟨k', v'⟩ := kv
    have hk : k' ≠ k := by
      intro he
      exact h (by simp [he])
    show (if k' = k then (k, v) :: rest else (k', v') :: dictInsert rest k v) = _
    rw [if_neg hk, ih (fun hm => h (by simp [hm]))]
    rfl

theorem flatEntries_append (a b : List (Name × List Name)) :
    flatEntries (a ++ b) = flatEntries a ++ flatEntries b := by
  induction a with
  | nil => rfl
  | cons g gs ih =>
    show entriesOf g ++ flatEntries (gs ++ b) = (entriesOf g ++ flatEntries gs) ++ _
    rw [ih, List.append_assoc]

theorem mem_flatEntries (k v : Name) :
    ∀ gs : List (Name × List Name),
      ((k, v) ∈ flatEntries gs ↔
        ∃ g ∈ gs, (lightOf g.2 ≠ [] ∧ darkOf g.2 ≠ []) ∧
          ((k = Lstr g ∧ v = Dstr g) ∨ (k = Dstr g ∧ v = Lstr g))) := by
  intro gs
  induction gs with
  | nil => simp [flatEntries]
  | cons g rest ih =>
    show (k, v) ∈ entriesOf g ++ flatEntries rest ↔ _
    rw [List.mem_append, ih]
    constructor
    · intro h
      rcases h with h | h
      · by_cases hq : lightOf g.2 ≠ [] ∧ darkOf g.2 ≠ []
        · rw [entriesOf, if_pos hq] at h
          rcases List.mem_cons.mp h with h | h
          · exact ⟨g, by simp, hq, Or.inl ⟨congrArg Prod.fst h, congrArg Prod.snd h⟩⟩
          · rcases List.mem_cons.mp h with h | h
            · exact ⟨g, by simp, hq, Or.inr ⟨congrArg Prod.fst h, congrArg Prod.snd h⟩⟩
            · exact absurd h (List.not_mem_nil _)
        · rw [entriesOf, if_neg hq] at h
          cases h
      · rcases h with ⟨g', hg', hq', hc'⟩
        exact ⟨g', List.mem_cons_of_mem g hg', hq', hc'⟩
    · rintro ⟨g', hg', hq', hc'⟩
      rcases List.mem_cons.mp hg' with he | hm
      · subst he
        refine Or.inl ?_
        rw [entriesOf, if_pos hq']
        rcases hc' with ⟨h1, h2⟩ | ⟨h1, h2⟩
        · subst h1; subst h2; simp
        · subst h1; subst h2; simp
      · exact Or.inr ⟨g', hm, hq', hc'⟩

theorem fst_mem_flatEntries (k : Name) (gs : List (Name × List Name))
    (h : k ∈ (flatEntries gs).map Prod.fst) :
    ∃ g ∈ gs, (lightOf g.2 ≠ [] ∧ darkOf g.2 ≠ []) ∧ (k = Lstr g ∨ k = Dstr g) := by
  rcases List.mem_map.mp h with ⟨kv, hkv, hfst⟩
  obtain ⟨k', v'⟩ := kv
  rcases (mem_flatEntries k' v' gs).mp hkv with ⟨g, hg, hq, hc⟩
  cases hfst
  rcases hc with ⟨h1, _⟩ | ⟨h1, _⟩
  · exact ⟨g, hg, hq, Or.inl h1⟩
  · exact ⟨g, hg, hq, Or.inr h1⟩

theorem addToGroup_keys (b x : Name) :
    ∀ g : List (Name × List Name),
      (addToGroup g b x).map Prod.fst =
        if b ∈ g.map Prod.fst then g.map Prod.fst else g.map Prod.fst ++ [b] := by
  intro g
  induction g with
  | nil => simp [addToGroup]
  | cons bt rest ih =>
    obtain ⟨b', ts⟩ := bt
    by_cases hb : b' = b
    · subst hb
      simp [addToGroup]
    · have hbne : b ≠ b' := fun he => hb he.symm
      have hstep : addToGroup ((b', ts) :: rest) b x = (b', ts) :: addToGroup rest b x := by
        simp [addToGroup, hb]
      rw [hstep, List.map_cons, ih]
      by_cases hmem : b ∈ rest.map Prod.fst
      · simp [hmem, hbne]
      · simp [hmem, hbne]

theorem addToGroup_entries (b x : Name) :
    ∀ g : List (Name × List Name), ∀ e ∈ addToGroup g b x,
      e ∈ g ∨ (∃ ts, (b, ts) ∈ g ∧ e = (b, ts ++ [x])) ∨ e = (b, [x]) := by
  intro g
  induction g with
  | nil =>
    intro e he
    rcases List.mem_cons.mp he with he | he
    · exact Or.inr (Or.inr he)
    · exact absurd he (List.not_mem_nil _)
  | cons bt rest ih =>
    obtain ⟨b', ts⟩ := bt
    intro e he
    by_cases hb : b' = b
    · subst hb
      rw [show addToGroup ((b', ts) :: rest) b' x = (b', ts ++ [x]) :: rest by
        simp [addToGroup]] at he
      rcases List.mem_cons.mp he with he | he
      · exact Or.inr (Or.inl ⟨ts, by simp, he⟩)
      · exact Or.inl (List.mem_cons_of_mem _ he)
    · rw [show addToGroup ((b', ts) :: rest) b x = (b', ts) :: addToGroup rest b x by
        simp [addToGroup, hb]] at he
      rcases List.mem_cons.mp he with he | he
      · exact Or.inl (by simp [he])
      · rcases ih e he with h | ⟨ts', hts', he'⟩ | h
        · exact Or.inl (List.mem_cons_of_mem _ h)
        · exact Or.inr (Or.inl ⟨ts', List.mem_cons_of_mem _ hts', he'⟩)
        · exact Or.inr (Or.inr h)

theorem addToGroup_wf (P : List Name) (g : List (Name × List Name)) (x : Name)
    (hwf : GroupsWF P g) (hx : x ∈ P) :
    GroupsWF P (addToGroup g (base_name x) x) := by
  obtain ⟨hN, hent⟩ := hwf
  constructor
  · rw [addToGroup_keys (base_name x) x g]
    by_cases hmem : base_name x ∈ g.map Prod.fst
    · simpa [hmem] using hN
    · rw [if_neg hmem]
      rw [List.nodup_append]
      refine ⟨hN, List.nodup_singleton _, ?_⟩
      intro a ha hb
      rcases List.mem_singleton.mp hb with rfl
      exact hmem ha
  · intro e he
    rcases addToGroup_entries (base_name x) x g e he with h | ⟨ts, hts, he'⟩ | h
    · exact hent e h
    · subst he'
      obtain ⟨hne, hmem⟩ := hent (base_name x, ts) hts
      refine ⟨by simp, ?_⟩
      intro y hy
      rcases List.mem_append.mp hy with hy | hy
      · exact hmem y hy
      · rcases List.mem_singleton.mp hy with rfl
        exact ⟨rfl, hx⟩
    · subst h
      refine ⟨by simp, ?_⟩
      intro y hy
      rcases List.mem_singleton.mp hy with rfl
      exact ⟨rfl, hx⟩

theorem foldDir_wf (P : List Name) (l : List Name) (hl : ∀ t ∈ l, t ∈ P) :
    ∀ g : List (Name × List Name), GroupsWF P g →
      GroupsWF P (l.foldl (fun g' t => addToGroup g' (base_name t) t) g) := by
  induction l with
  | nil => intro g hg; exact hg
  | cons x xs ih =>
    intro g hg
    show GroupsWF P (xs.foldl _ (addToGroup g (base_name x) x))
    exact ih (fun t ht => hl t (List.mem_cons_of_mem x ht))
      (addToGroup g (base_name x) x)
      (addToGroup_wf P g x hg (hl x (List.mem_cons_self x xs)))

theorem mem_allThemes (t : Name) :
    ∀ dirs : List (List Name), t ∈ allThemes dirs ↔ ∃ d ∈ dirs, t ∈ d := by
  intro dirs
  induction dirs with
  | nil => simp [allThemes]
  | cons d ds ih =>
    show t ∈ d ++ allThemes ds ↔ _
    rw [List.mem_append, ih]
    simp

theorem scanGroups_wf (dirs : List (List Name)) :
    GroupsWF (allThemes dirs) (scanGroups dirs) := by
  have aux : ∀ (ds : List (List Name)) (g : List (Name × List Name)),
      (∀ d ∈ ds, ∀ t ∈ d, t ∈ allThemes dirs) →
      GroupsWF (allThemes dirs) g →
      GroupsWF (allThemes dirs)
        (ds.foldl (fun groups dir =>
          dir.foldl (fun g' t => addToGroup g' (base_name t) t) groups) g) := by
    intro ds
    induction ds with
    | nil => intro g _ hg; exact hg
    | cons d rest ih =>
      intro g hd hg
      show GroupsWF _ (rest.foldl _
        (d.foldl (fun g' t => addToGroup g' (base_name t) t) g))
      refine ih _ (fun d' hd' t ht => hd d' (List.mem_cons_of_mem d hd') t ht) ?_
      exact foldDir_wf _ d (fun t ht => hd d (List.mem_cons_self d rest) t ht) g hg
  refine aux dirs [] ?_ ?_
  · intro d hd t ht
    exact (mem_allThemes t dirs).mpr ⟨d, hd, ht⟩
  · exact ⟨List.nodup_nil, by simp⟩

theorem nodup_fst_eq (gs : List (Name × List Name)) (hN : (gs.map Prod.fst).Nodup) :
    ∀ (b : Name) (ts1 ts2 : List Name), (b, ts1) ∈ gs → (b, ts2) ∈ gs → ts1 = ts2 := by
  induction gs with
  | nil => intro b ts1 ts2 h1 _; exact absurd h1 (List.not_mem_nil _)
  | cons bt rest ih =>
    obtain ⟨b', ts⟩ := bt
    intro b ts1 ts2 h1 h2
    have hN' : (rest.map Prod.fst).Nodup := (List.nodup_cons.mp hN).2
    have hnotin : b' ∉ rest.map Prod.fst := (List.nodup_cons.mp hN).1
    rcases List.mem_cons.mp h1 with h1 | h1 <;> rcases List.mem_cons.mp h2 with h2 | h2
    · injection h1 with hb1 hts1
      injection h2 with hb2 hts2
      rw [hts1, hts2]
    · injection h1 with hb1 hts1
      rw [← hb1] at hnotin
      exact absurd (List.mem_map.mpr ⟨(b, ts2), h2, rfl⟩) hnotin
    · injection h2 with hb2 hts2
      rw [← hb2] at hnotin
      exact absurd (List.mem_map.mpr ⟨(b, ts1), h1, rfl⟩) hnotin
    · exact ih hN' b ts1 ts2 h1 h2

theorem wf_group_eq (P : List Name) (gs : List (Name × List Name))
    (hwf : GroupsWF P gs) (g1 g2 : Name × List Name)
    (hg1 : g1 ∈ gs) (hg2 : g2 ∈ gs)
    (x : Name) (hx1 : x ∈ g1.2) (hx2 : x ∈ g2.2) : g1 = g2 := by
  obtain ⟨hN, hent⟩ := hwf
  have hb1 : base_name x = g1.1 := ((hent g1 hg1).2 x hx1).1
  have hb2 : base_name x = g2.1 := ((hent g2 hg2).2 x hx2).1
  obtain ⟨b1, ts1⟩ := g1
  obtain ⟨b2, ts2⟩ := g2
  simp only at hb1 hb2
  have hb : b1 = b2 := by rw [← hb1, ← hb2]
  subst hb
  have := nodup_fst_eq gs hN b1 ts1 ts2 hg1 hg2
  rw [this]

theorem splitComma_Lstr (P : List Name) (gs : List (Name × List Name))
    (hwf : GroupsWF P gs) (hnc : ∀ t ∈ P, ',' ∉ t)
    (g : Name × List Name) (hg : g ∈ gs) (hne : lightOf g.2 ≠ []) :
    splitComma (Lstr g) = sortNames (lightOf g.2) := by
  refine splitComma_joinComma _ (sortNames_ne_nil _ hne) ?_
  intro x hx
  have hx' : x ∈ lightOf g.2 := (mem_sortNames x _).mp hx
  have hxts : x ∈ g.2 := ((mem_lightOf x g.2).mp hx').1
  exact hnc x ((hwf.2 g hg).2 x hxts).2

theorem splitComma_Dstr (P : List Name) (gs : List (Name × List Name))
    (hwf : GroupsWF P gs) (hnc : ∀ t ∈ P, ',' ∉ t)
    (g : Name × List Name) (hg : g ∈ gs) (hne : darkOf g.2 ≠ []) :
    splitComma (Dstr g) = sortNames (darkOf g.2) := by
  refine splitComma_joinComma _ (sortNames_ne_nil _ hne) ?_
  intro x hx
  have hx' : x ∈ darkOf g.2 := (mem_sortNames x _).mp hx
  have hxts : x ∈ g.2 := ((mem_darkOf x g.2).mp hx').1
  exact hnc x ((hwf.2 g hg).2 x hxts).2

theorem Lstr_inj (P : List Name) (gs : List (Name × List Name))
    (hwf : GroupsWF P gs) (hnc : ∀ t ∈ P, ',' ∉ t)
    (g1 g2 : Name × List Name) (hg1 : g1 ∈ gs) (hg2 : g2 ∈ gs)
    (h1 : lightOf g1.2 ≠ []) (h2 : lightOf g2.2 ≠ [])
    (he : Lstr g1 = Lstr g2) : g1 = g2 := by
  have e1 := splitComma_Lstr P gs hwf hnc g1 hg1 h1
  have e2 := splitComma_Lstr P gs hwf hnc g2 hg2 h2
  have hsort : sortNames (lightOf g1.2) = sortNames (lightOf g2.2) := by
    rw [← e1, ← e2, he]
  obtain ⟨x, hx⟩ := List.exists_mem_of_ne_nil _ (sortNames_ne_nil _ h1)
  have hx1 : x ∈ lightOf g1.2 := (mem_sortNames _ _).mp hx
  have hx2 : x ∈ lightOf g2.2 := (mem_sortNames _ _).mp (hsort ▸ hx)
  exact wf_group_eq P gs hwf g1 g2 hg1 hg2 x
    ((mem_lightOf _ _).mp hx1).1 ((mem_lightOf _ _).mp hx2).1

theorem Dstr_inj (P : List Name) (gs : List (Name × List Name))
    (hwf : GroupsWF P gs) (hnc : ∀ t ∈ P, ',' ∉ t)
    (g1 g2 : Name × List Name) (hg1 : g1 ∈ gs) (hg2 : g2 ∈ gs)
    (h1 : darkOf g1.2 ≠ []) (h2 : darkOf g2.2 ≠ [])
    (he : Dstr g1 = Dstr g2) : g1 = g2 := by
  have e1 := splitComma_Dstr P gs hwf hnc g1 hg1 h1
  have e2 := splitComma_Dstr P gs hwf hnc g2 hg2 h2
  have hsort : sortNames (darkOf g1.2) = sortNames (darkOf g2.2) := by
    rw [← e1, ← e2, he]
  obtain ⟨x, hx⟩ := List.exists_mem_of_ne_nil _ (sortNames_ne_nil _ h1)
  have hx1 : x ∈ darkOf g1.2 := (mem_sortNames _ _).mp hx
  have hx2 : x ∈ darkOf g2.2 := (mem_sortNames _ _).mp (hsort ▸ hx)
  exact wf_group_eq P gs hwf g1 g2 hg1 hg2 x
    ((mem_darkOf _ _).mp hx1).1 ((mem_darkOf _ _).mp hx2).1

theorem Lstr_ne_Dstr (P : List Name) (gs : List (Name × List Name))
    (hwf : GroupsWF P gs) (hnc : ∀ t ∈ P, ',' ∉ t)
    (g1 g2 : Name × List Name) (hg1 : g1 ∈ gs) (hg2 : g2 ∈ gs)
    (h1 : lightOf g1.2 ≠ []) (h2 : darkOf g2.2 ≠ []) : Lstr g1 ≠ Dstr g2 := by
  intro he
  have e1 := splitComma_Lstr P gs hwf hnc g1 hg1 h1
  have e2 := splitComma_Dstr P gs hwf hnc g2 hg2 h2
  have hsort : sortNames (lightOf g1.2) = sortNames (darkOf g2.2) := by
    rw [← e1, ← e2, he]
  obtain ⟨x, hx⟩ := List.exists_mem_of_ne_nil _ (sortNames_ne_nil _ h1)
  have hx1 : x ∈ lightOf g1.2 := (mem_sortNames _ _).mp hx
  have hx2 : x ∈ darkOf g2.2 := (mem_sortNames _ _).mp (hsort ▸ hx)
  have hf : isDarkName x = false := ((mem_lightOf _ _).mp hx1).2
  have ht : isDarkName x = true := ((mem_darkOf _ _).mp hx2).2
  rw [hf] at ht
  exact absurd ht (by simp)

theorem nodup_split_fst (pre suf : List (Name × List Name)) (g : Name × List Name)
    (hN : ((pre ++ g :: suf).map Prod.fst).Nodup) : g.1 ∉ pre.map Prod.fst := by
  rw [List.map_append] at hN
  rcases List.nodup_append.mp hN with ⟨_, _, hdisj⟩
  intro hmem
  exact hdisj hmem (by simp)

theorem generate_theme_map_eq_flat (dirs : List (List Name)) (hnc : NoComma dirs) :
    generate_theme_map dirs = flatEntries (scanGroups dirs) := by
  have hwf := scanGroups_wf dirs
  have hnc' : ∀ t ∈ allThemes dirs, ',' ∉ t := hnc
  have aux : ∀ (suf pre : List (Name × List Name)),
      scanGroups dirs = pre ++ suf →
      suf.foldl genStep (flatEntries pre) = flatEntries (pre ++ suf) := by
    intro suf
    induction suf with
    | nil =>
      intro pre _
      simp
    | cons g suf' ih =>
      intro pre hsplit
      have hg : g ∈ scanGroups dirs := by
        rw [hsplit]
        exact List.mem_append_right _ (List.mem_cons_self _ _)
      have hmemgs : ∀ g' ∈ pre, g' ∈ scanGroups dirs := fun g' h => by
        rw [hsplit]
        exact List.mem_append_left _ h
      have hIH := ih (pre ++ [g]) (by rw [hsplit]; simp)
      show suf'.foldl genStep (genStep (flatEntries pre) g) = _
      by_cases hq : lightOf g.2 ≠ [] ∧ darkOf g.2 ≠ []
      · have hLfresh : Lstr g ∉ (flatEntries pre).map Prod.fst := by
          intro hmem
          rcases fst_mem_flatEntries _ pre hmem with ⟨g', hg', hq', hcase⟩
          rcases hcase with hcase | hcase
          · have heq := Lstr_inj _ _ hwf hnc' g g' hg (hmemgs g' hg') hq.1 hq'.1 hcase
            have hnotin := nodup_split_fst pre suf' g (by rw [← hsplit]; exact hwf.1)
            exact hnotin (heq ▸ List.mem_map.mpr ⟨g', hg', rfl⟩)
          · exact Lstr_ne_Dstr _ _ hwf hnc' g g' hg (hmemgs g' hg') hq.1 hq'.2 hcase
        have hDfresh : Dstr g ∉ (flatEntries pre).map Prod.fst := by
          intro hmem
          rcases fst_mem_flatEntries _ pre hmem with ⟨g', hg', hq', hcase⟩
          rcases hcase with hcase | hcase
          · exact Lstr_ne_Dstr _ _ hwf hnc' g' g (hmemgs g' hg') hg hq'.1 hq.2 hcase.symm
          · have heq := Dstr_inj _ _ hwf hnc' g g' hg (hmemgs g' hg') hq.2 hq'.2 hcase
            have hnotin := nodup_split_fst pre suf' g (by rw [← hsplit]; exact hwf.1)
            exact hnotin (heq ▸ List.mem_map.mpr ⟨g', hg', rfl⟩)
        have hLD : Dstr g ≠ Lstr g := fun he =>
          Lstr_ne_Dstr _ _ hwf hnc' g g hg hg hq.1 hq.2 he.symm
        have hD2 : Dstr g ∉ ((flatEntries pre) ++ [(Lstr g, Dstr g)]).map Prod.fst := by
          rw [List.map_append]
          intro hmem
          rcases List.mem_append.mp hmem with hmem | hmem
          · exact hDfresh hmem
          · simp at hmem
            exact hLD hmem
        have hstep : genStep (flatEntries pre) g =
            flatEntries pre ++ [(Lstr g, Dstr g), (Dstr g, Lstr g)] := by
          show (if lightOf g.2 ≠ [] ∧ darkOf g.2 ≠ [] then
              dictInsert (dictInsert (flatEntries pre) (Lstr g) (Dstr g)) (Dstr g) (Lstr g)
            else flatEntries pre) = _
          rw [if_pos hq, dictInsert_not_mem (Lstr g) (Dstr g) (flatEntries pre) hLfresh,
            dictInsert_not_mem (Dstr g) (Lstr g) _ hD2, List.append_assoc]
          rfl
        have hflat : flatEntries pre ++ [(Lstr g, Dstr g), (Dstr g, Lstr g)] =
            flatEntries (pre ++ [g]) := by
          rw [flatEntries_append]
          congr 1
          show _ = entriesOf g ++ flatEntries []
          rw [entriesOf, if_pos hq]
          rfl
        rw [hstep, hflat, hIH, List.append_assoc]
        rfl
      · have hstep : genStep (flatEntries pre) g = flatEntries pre := by
          show (if lightOf g.2 ≠ [] ∧ darkOf g.2 ≠ [] then
              dictInsert (dictInsert (flatEntries pre) (Lstr g) (Dstr g)) (Dstr g) (Lstr g)
            else flatEntries pre) = _
          rw [if_neg hq]
        have hflat : flatEntries pre = flatEntries (pre ++ [g]) := by
          rw [flatEntries_append]
          have : entriesOf g = [] := by rw [entriesOf, if_neg hq]
          show _ = _ ++ (entriesOf g ++ flatEntries [])
          rw [this]
          simp [flatEntries]
        rw [hstep, hflat, hIH, List.append_assoc]
        rfl
  have := aux (scanGroups dirs) [] rfl
  simpa [flatEntries] using this

/-- Counterexample to `C8`: with comma-containing theme names the canonical
keys of two distinct families can collide and one direction is overwritten:
scanning the single directory [Foo,Foo-light; Foo,Foo-dark; Foo; Foo-light;
Foo-dark], the table maps "Foo,Foo-dark" to "Foo,Foo-light" but no longer
maps "Foo,Foo-light" back to "Foo,Foo-dark" (that key was overwritten by
the second family), so the table is not symmetric. -/
theorem generate_theme_map_symm_cex :
    ((("Foo,Foo-dark").data), (("Foo,Foo-light").data)) ∈
      generate_theme_map [[("Foo,Foo-light").data, ("Foo,Foo-dark").data,
        ("Foo").data, ("Foo-light").data, ("Foo-dark").data]] ∧
    ((("Foo,Foo-light").data), (("Foo,Foo-dark").data)) ∉
      generate_theme_map [[("Foo,Foo-light").data, ("Foo,Foo-dark").data,
        ("Foo").data, ("Foo-light").data, ("Foo-dark").data]] := by
  refine ⟨?_, ?_⟩ <;> decide

/-- `C8` as amended: provided no scanned theme name contains a comma, every
pairing table produced by the catalog builder is symmetric — for every key
`k` mapped to value `v` the table also contains `v` as a key mapped back to
`k`. -/
theorem generate_theme_map_symm (dirs : List (List Name)) (hnc : NoComma dirs)
    (k v : Name) (h : (k, v) ∈ generate_theme_map dirs) :
    (v, k) ∈ generate_theme_map dirs := by
  rw [generate_theme_map_eq_flat dirs hnc] at h ⊢
  rcases (mem_flatEntries k v _).mp h with ⟨g, hg, hq, hc⟩
  refine (mem_flatEntries v k _).mpr ⟨g, hg, hq, ?_⟩
  rcases hc with ⟨h1, h2⟩ | ⟨h1, h2⟩
  · exact Or.inr ⟨h2, h1⟩
  · exact Or.inl ⟨h2, h1⟩

/-- Witness for the amended `C8` at a concrete input: the table built from
[A; A-dark] contains the reverse of its entry ("A", "A-dark"). -/
theorem generate_theme_map_symm_witness :
    ((("A-dark").data), (("A").data)) ∈ generate_theme_map [[("A").data, ("A-dark").data]] :=
  generate_theme_map_symm [[("A").data, ("A-dark").data]]
    (by unfold NoComma; decide) (("A").data) (("A-dark").data) (by decide)

/-- Counterexample to `C7`: the family with base "Foo,Foo" (members
Foo,Foo-light and Foo,Foo-dark) has both a light and a dark member, yet its
entry — the pair of its canonical side keys — is NOT in the table: the
comma-colliding family "Foo" overwrote the shared key "Foo,Foo-light". -/
theorem generate_theme_map_family_cex :
    ((("Foo,Foo").data), [("Foo,Foo-light").data, ("Foo,Foo-dark").data]) ∈
      scanGroups [[("Foo,Foo-light").data, ("Foo,Foo-dark").data,
        ("Foo").data, ("Foo-light").data, ("Foo-dark").data]] ∧
    lightOf [("Foo,Foo-light").data, ("Foo,Foo-dark").data] ≠ [] ∧
    darkOf [("Foo,Foo-light").data, ("Foo,Foo-dark").data] ≠ [] ∧
    (Lstr ((("Foo,Foo").data), [("Foo,Foo-light").data, ("Foo,Foo-dark").data]),
     Dstr ((("Foo,Foo").data), [("Foo,Foo-light").data, ("Foo,Foo-dark").data])) ∉
      generate_theme_map [[("Foo,Foo-light").data, ("Foo,Foo-dark").data,
        ("Foo").data, ("Foo-light").data, ("Foo-dark").data]] := by
  refine ⟨?_, ?_, ?_, ?_⟩ <;> decide

/-- `C7` as amended: provided no scanned theme name contains a comma, a
family contributes its entry (the pair of its canonical light and dark side
keys) to the pairing table if and only if it has at least one light member
and at least one dark member. -/
theorem generate_theme_map_family_iff (dirs : List (List Name)) (hnc : NoComma dirs)
    (b : Name) (ts : List Name) (hg : (b, ts) ∈ scanGroups dirs) :
    ((Lstr (b, ts), Dstr (b, ts)) ∈ generate_theme_map dirs ↔
      (lightOf ts ≠ [] ∧ darkOf ts ≠ [])) := by
  have hwf := scanGroups_wf dirs
  have hnc' : ∀ t ∈ allThemes dirs, ',' ∉ t := hnc
  rw [generate_theme_map_eq_flat dirs hnc]
  constructor
  · intro h
    rcases (mem_flatEntries _ _ _).mp h with ⟨g', hg', hq', hc⟩
    have hts : ts ≠ [] := (hwf.2 (b, ts) hg).1
    rcases sides_ne_nil_of_ne_nil ts hts with hside | hside
    · rcases hc with ⟨h1, _⟩ | ⟨h1, _⟩
      · have heq := Lstr_inj _ _ hwf hnc' (b, ts) g' hg hg' hside hq'.1 h1
        rw [← heq] at hq'
        exact hq'
      · exact absurd h1 (Lstr_ne_Dstr _ _ hwf hnc' (b, ts) g' hg hg' hside hq'.2)
    · rcases hc with ⟨_, h2⟩ | ⟨_, h2⟩
      · have heq := Dstr_inj _ _ hwf hnc' (b, ts) g' hg hg' hside hq'.2 h2
        rw [← heq] at hq'
        exact hq'
      · exact absurd h2.symm (Lstr_ne_Dstr _ _ hwf hnc' g' (b, ts) hg' hg hq'.1 hside)
  · intro hq
    exact (mem_flatEntries _ _ _).mpr ⟨(b, ts), hg, hq, Or.inl ⟨rfl, rfl⟩⟩

/-- Witness for the amended `C7` at a concrete input: the family of [A;
A-dark] has a light and a dark member, and its entry is in the table. -/
theorem generate_theme_map_family_iff_witness :
    (Lstr ((("A").data), [("A").data, ("A-dark").data]),
     Dstr ((("A").data), [("A").data, ("A-dark").data])) ∈
      generate_theme_map [[("A").data, ("A-dark").data]] :=
  (generate_theme_map_family_iff [[("A").data, ("A-dark").data]]
    (by unfold NoComma; decide)
    (("A").data) [("A").data, ("A-dark").data] (by decide)).mpr (by decide)

theorem flatEntries_sides (P : List Name) (gs : List (Name × List Name))
    (hwf : GroupsWF P gs) (hnc : ∀ t ∈ P, ',' ∉ t)
    (k v : Name) (h : (k, v) ∈ flatEntries gs) :
    ((∀ x ∈ splitComma k, isDarkName x = false) ∧
      (∀ x ∈ splitComma v, isDarkName x = true)) ∨
    ((∀ x ∈ splitComma k, isDarkName x = true) ∧
      (∀ x ∈ splitComma v, isDarkName x = false)) := by
  rcases (mem_flatEntries k v gs).mp h with ⟨g, hg, hq, hc⟩
  have hL : ∀ x ∈ splitComma (Lstr g), isDarkName x = false := by
    intro x hx
    rw [splitComma_Lstr P gs hwf hnc g hg hq.1] at hx
    exact ((mem_lightOf x g.2).mp ((mem_sortNames x _).mp hx)).2
  have hD : ∀ x ∈ splitComma (Dstr g), isDarkName x = true := by
    intro x hx
    rw [splitComma_Dstr P gs hwf hnc g hg hq.2] at hx
    exact ((mem_darkOf x g.2).mp ((mem_sortNames x _).mp hx)).2
  rcases hc with ⟨h1, h2⟩ | ⟨h1, h2⟩
  · subst h1; subst h2
    exact Or.inl ⟨hL, hD⟩
  · subst h1; subst h2
    exact Or.inr ⟨hD, hL⟩

theorem find_counterpart_opposite_aux (t c : Name) :
    ∀ m : List (Name × Name),
      (∀ kv ∈ m,
        ((∀ x ∈ splitComma kv.1, isDarkName x = false) ∧
          (∀ x ∈ splitComma kv.2, isDarkName x = true)) ∨
        ((∀ x ∈ splitComma kv.1, isDarkName x = true) ∧
          (∀ x ∈ splitComma kv.2, isDarkName x = false))) →
      find_counterpart_theme t m = some c →
      isDarkName c = !(isDarkName t) := by
  intro m
  induction m with
  | nil =>
    intro _ h
    exact absurd h (by simp [find_counterpart_theme])
  | cons kv rest ih =>
    intro hall h
    obtain ⟨key, value⟩ := kv
    have hkv := hall (key, value) (List.mem_cons_self _ _)
    by_cases h1 : t ∈ splitComma key
    · rw [show find_counterpart_theme t ((key, value) :: rest) =
        some ((splitComma value).headD []) from by
          simp [find_counterpart_theme, h1]] at h
      injection h with hc
      subst hc
      have hcv : (splitComma value).headD [] ∈ splitComma value :=
        headD_mem _ (splitComma_ne_nil value)
      rcases hkv with ⟨hk, hv⟩ | ⟨hk, hv⟩
      · rw [hv _ hcv, hk t h1]; rfl
      · rw [hv _ hcv, hk t h1]; rfl
    · by_cases h2 : t ∈ splitComma value
      · rw [show find_counterpart_theme t ((key, value) :: rest) =
          some ((splitComma key).headD []) from by
            simp [find_counterpart_theme, h1, h2]] at h
        injection h with hc
        subst hc
        have hck : (splitComma key).headD [] ∈ splitComma key :=
          headD_mem _ (splitComma_ne_nil key)
        rcases hkv with ⟨hk, hv⟩ | ⟨hk, hv⟩
        · rw [hk _ hck, hv t h2]; rfl
        · rw [hk _ hck, hv t h2]; rfl
      · rw [show find_counterpart_theme t ((key, value) :: rest) =
          find_counterpart_theme t rest from by
            simp [find_counterpart_theme, h1, h2]] at h
        exact ih (fun kv hkv => hall kv (List.mem_cons_of_mem _ hkv)) h

/-- Counterexample to `C10`: on the table built from the single directory
[A,B; A,B-dark] (theme names containing commas), looking up "A" — a comma
fragment of the light key — returns "A", a theme of the SAME (light) mode
as the query, not the opposite mode. -/
theorem find_counterpart_opposite_cex :
    (find_counterpart_theme (("A").data)
      (generate_theme_map [[("A,B").data, ("A,B-dark").data]])).map get_current_mode =
      some (get_current_mode (("A").data)) := by
  decide

/-- `C10` as amended: provided no scanned theme name contains a comma, a
successful counterpart lookup in a table produced by the catalog builder
always returns a theme whose classified mode is the opposite of the queried
theme's mode. -/
theorem find_counterpart_opposite (dirs : List (List Name)) (hnc : NoComma dirs)
    (t c : Name)
    (h : find_counterpart_theme t (generate_theme_map dirs) = some c) :
    get_current_mode c ≠ get_current_mode t := by
  rw [generate_theme_map_eq_flat dirs hnc] at h
  have hwf := scanGroups_wf dirs
  have hopp := find_counterpart_opposite_aux t c _
    (fun kv hkv => flatEntries_sides _ _ hwf hnc kv.1 kv.2 hkv) h
  intro he
  cases hd : isDarkName t with
  | false =>
    rw [hd] at hopp
    simp only [Bool.not_false] at hopp
    simp [get_current_mode, hd, hopp] at he
  | true =>
    rw [hd] at hopp
    simp only [Bool.not_true] at hopp
    simp [get_current_mode, hd, hopp] at he

/-- Witness for the amended `C10` at a concrete input: looking up "A" in
the table built from [A; A-dark] yields "A-dark", of the opposite mode. -/
theorem find_counterpart_opposite_witness :
    get_current_mode (("A-dark").data) ≠ get_current_mode (("A").data) :=
  find_counterpart_opposite [[("A").data, ("A-dark").data]]
    (by unfold NoComma; decide) (("A").data) (("A-dark").data) (by decide)

end Switchipy
